import Mathlib

/-!
Verification of the `Javlt` self-balancing AVL tree (src/src/javlt/mod.rs).

The shallow embedding below mirrors the Rust source:
* `Option<Box<Node<T>>>` becomes `Jtree α` with `nil` for `None`;
* a `Node` carries its value, its cached `height` field (`u32` embedded as
  `Nat`) and its two child slots;
* fallible operations return their `Result<(), TreeError>` together with the
  replacement subtree, exactly like `Node::drop_value`, and errors perform no
  mutation exactly where the source performs none (every error path of
  `Node::add` and `Node::drop_value` returns before any structural change);
* the `i64` balancing factor is embedded as `Int`;
* the generic `T: PartialEq + PartialOrd + Clone` value type is embedded as a
  linearly ordered `α` (all uses in the repository instantiate `T` at totally
  ordered types).

The two `unwrap()` calls inside `Node::rebalance` (on the right child or the
right child's left child, and their mirrors) would panic on `None`; the
corresponding match arms below return the node unchanged.  Those arms are
unreachable whenever the cached heights are consistent, and no theorem below
depends on their value.
-/

inductive TreeError where
  | ValueAlreadyStored : TreeError
  | ValueNotFound : TreeError
deriving DecidableEq, Repr

inductive Jtree (α : Type) where
  | nil : Jtree α
  | node (value : α) (height : Nat) (left right : Jtree α) : Jtree α
deriving DecidableEq, Repr

namespace Jtree

variable {α : Type} [LinearOrder α]

/-- Cached height of an optional subtree: 0 for an absent child, otherwise the
node's stored `height` field (the `if ... is_none() {0} else {...height}` idiom
of the source). -/
def hgt : Jtree α → Nat
  | nil => 0
  | node _ h _ _ => h

/-- Height recomputation of `Node::compute_height`: one plus the larger cached
child height. -/
def computeHeight (l r : Jtree α) : Nat :=
  max (hgt l) (hgt r) + 1

/-- Balancing factor of `Node::compute_balancing_factor`: cached height of the
right child minus cached height of the left child, as a signed integer. -/
def balancingFactor (l r : Jtree α) : Int :=
  (hgt r : Int) - (hgt l : Int)

/-- Replace the stored height by the recomputed one (the
`self.height = self.compute_height()` statement). -/
def setHeight : Jtree α → Jtree α
  | nil => nil
  | node v _ l r => node v (computeHeight l r) l r

/-- Direct transcription of `Node::rebalance`.  The source mutates `self` in
place; here each branch builds the resulting subtree.  Branch conditions and
the order of height recomputations follow the source exactly; in particular
the single left rotation fires only when the right child's balancing factor is
strictly positive, and its mirror only when the left child's factor is
strictly negative. -/
def rebalance : Jtree α → Jtree α
  | nil => nil
  | node v h l r =>
    let bf := balancingFactor l r
    if -1 ≤ bf ∧ bf ≤ 1 then
      node v h l r
    else if 1 < bf then
      match r with
      | nil => node v h l r
      | node rv rh rl rr =>
        if 0 < balancingFactor rl rr then
          let newLeft := node v (computeHeight l rl) l rl
          node rv (computeHeight newLeft rr) newLeft rr
        else
          match rl with
          | nil => node v h l (node rv rh nil rr)
          | node rlv rlh rll rlr =>
            let newRightRight := node rv (computeHeight rlr rr) rlr rr
            let newLeft := node v (computeHeight l rll) l rll
            node rlv (computeHeight newLeft newRightRight) newLeft newRightRight
    else
      match l with
      | nil => node v h l r
      | node lv lh ll lr =>
        if balancingFactor ll lr < 0 then
          let newRight := node v (computeHeight lr r) lr r
          node lv (computeHeight ll newRight) ll newRight
        else
          match lr with
          | nil => node v h (node lv lh ll nil) r
          | node lrv lrh lrl lrr =>
            let newLeftLeft := node lv (computeHeight ll lrl) ll lrl
            let newRight := node v (computeHeight lrr r) lrr r
            node lrv (computeHeight newLeftLeft newRight) newLeftLeft newRight

/-- Transcription of `Node::add`.  Called on `nil` it produces the fresh leaf
that the source's parent installs into its empty child slot
(`self.left = Some(Box::new(Node::new(value)))`).  Equality is detected first
and short-circuits with `ValueAlreadyStored` before any change; on the way
back from a successful recursive call the node is rebalanced and its height
recomputed, in that order. -/
def add : Jtree α → α → Except TreeError Unit × Jtree α
  | nil, x => (.ok (), node x 1 nil nil)
  | node v h l r, x =>
    if x = v then
      (.error .ValueAlreadyStored, node v h l r)
    else if x < v then
      match add l x with
      | (.error e, l') => (.error e, node v h l' r)
      | (.ok _, l') => (.ok (), setHeight (rebalance (node v h l' r)))
    else
      match add r x with
      | (.error e, r') => (.error e, node v h l r')
      | (.ok _, r') => (.ok (), setHeight (rebalance (node v h l r')))

/-- Transcription of `Node::contains` (with `false` on an absent child,
matching the `None => return false` arms and the handle's empty-tree case). -/
def contains : Jtree α → α → Bool
  | nil, _ => false
  | node v _ l r, x =>
    if x = v then true
    else if x < v then contains l x
    else contains r x

/-- Test of `Node::is_leaf`: both child slots absent. -/
def isLeaf : Jtree α → Bool
  | node _ _ nil nil => true
  | _ => false

/-- Transcription of `Node::least_value` for a node whose value is `v` and
whose left child slot is the first argument's tree: descend left all the way,
returning `v` when the left slot is absent. -/
def leastFrom (v : α) : Jtree α → α
  | nil => v
  | node v' _ l' _ => leastFrom v' l'

/-- Transcription of `Node::collect_values_l_to_r`: the accumulator plays the
role of the borrowed vector, and `push` appends on the right. -/
def collectValuesLToR : Jtree α → List α → List α
  | nil, acc => acc
  | node v _ l r, acc => collectValuesLToR r (collectValuesLToR l acc ++ [v])

/-- Transcription of `Node::collect_values_r_to_l`. -/
def collectValuesRToL : Jtree α → List α → List α
  | nil, acc => acc
  | node v _ l r, acc => collectValuesRToL l (collectValuesRToL r acc ++ [v])

/-- In-order value sequence of a subtree; `collectValuesLToR` starting from an
empty vector produces exactly this list (proved below). -/
def toListLR : Jtree α → List α
  | nil => []
  | node v _ l r => toListLR l ++ v :: toListLR r

/-- Reverse-in-order value sequence of a subtree. -/
def toListRL : Jtree α → List α
  | nil => []
  | node v _ l r => toListRL r ++ v :: toListRL l

/-- Transcription of `Node::drop_value`.  The source consumes `self` and
returns a `(Result, Option<Box<Node>>)` pair; the second component is the
replacement for the node.  On `nil` the pair `(Err(ValueNotFound), None)`
reproduces both the handle's empty-root case and the `None => return
(Err(...), Some(self))` arms of the source (the parent reinstalls the
unchanged empty slot).  The exact-match cases follow the source's priority
order: leaf, missing left, missing right, right child a leaf, left child a
leaf, and finally the successor rewrite that discards the inner `Result`. -/
def dropValue : Jtree α → α → Except TreeError Unit × Jtree α
  | nil, _ => (.error .ValueNotFound, nil)
  | node v h l r, x =>
    if x < v then
      match dropValue l x with
      | (.error _, l') => (.error .ValueNotFound, node v h l' r)
      | (.ok _, l') => (.ok (), setHeight (rebalance (node v h l' r)))
    else if v < x then
      match dropValue r x with
      | (.error _, r') => (.error .ValueNotFound, node v h l r')
      | (.ok _, r') => (.ok (), setHeight (rebalance (node v h l r')))
    else
      match l, r with
      | nil, nil => (.ok (), nil)
      | nil, node rv rh rl rr => (.ok (), node rv rh rl rr)
      | node lv lh ll lr, nil => (.ok (), node lv lh ll lr)
      | node lv lh ll lr, node rv rh rl rr =>
        if isLeaf (node rv rh rl rr) then
          (.ok (), setHeight (rebalance (node rv h (node lv lh ll lr) nil)))
        else if isLeaf (node lv lh ll lr) then
          (.ok (), setHeight (rebalance (node lv h nil (node rv rh rl rr))))
        else
          let m := leastFrom rv rl
          (.ok (), setHeight (rebalance (node m h (node lv lh ll lr) (dropValue r m).2)))

/-- Actual height of a subtree, computed from the structure rather than the
cached fields; used to state the AVL balance condition. -/
def realHeight : Jtree α → Nat
  | nil => 0
  | node _ _ l r => max (realHeight l) (realHeight r) + 1

/-- AVL balance condition on actual heights: at every node the heights of the
two subtrees differ by at most one (an absent subtree having height 0). -/
def isAvlBalanced : Jtree α → Bool
  | nil => true
  | node _ _ l r =>
    decide (((realHeight r : Int) - (realHeight l : Int)).natAbs ≤ 1)
      && isAvlBalanced l && isAvlBalanced r

/-- Value stored at the root of a subtree, mirroring `Javlt::get_root_value`. -/
def rootValue : Jtree α → Option α
  | nil => none
  | node v _ _ _ => some v

/-- Cached `height` field of the root node, mirroring the
`my_tree.root.as_ref().unwrap().height` reads of the source's tests. -/
def rootHeight : Jtree α → Option Nat
  | nil => none
  | node _ h _ _ => some h

/-- Search-tree ordering at every node: all values of the left subtree are
strictly below the node's value and all values of the right subtree strictly
above, recursively. -/
def Bst : Jtree α → Prop
  | nil => True
  | node v _ l r =>
    (∀ y ∈ toListLR l, y < v) ∧ (∀ y ∈ toListLR r, v < y) ∧ Bst l ∧ Bst r

end Jtree

/-- Transcription of the `Javlt` handle: the cardinality counter and the
optional root. -/
structure Javlt (α : Type) where
  size : Nat
  root : Jtree α
deriving DecidableEq, Repr

namespace Javlt

variable {α : Type} [LinearOrder α]

/-- Transcription of `Javlt::new`. -/
def new : Javlt α := ⟨0, .nil⟩

/-- Transcription of `Javlt::add`: delegate to the root node (installing a
fresh leaf when the root slot is empty), and bump `size` exactly on success. -/
def add (t : Javlt α) (x : α) : Except TreeError Unit × Javlt α :=
  match Jtree.add t.root x with
  | (.error e, root') => (.error e, ⟨t.size, root'⟩)
  | (.ok _, root') => (.ok (), ⟨t.size + 1, root'⟩)

/-- Transcription of `Javlt::drop_value`: delegate to the root node and
decrement `size` exactly on success. -/
def dropValue (t : Javlt α) (x : α) : Except TreeError Unit × Javlt α :=
  match Jtree.dropValue t.root x with
  | (.error _, root') => (.error .ValueNotFound, ⟨t.size, root'⟩)
  | (.ok _, root') => (.ok (), ⟨t.size - 1, root'⟩)

/-- Transcription of `Javlt::get_size`. -/
def getSize (t : Javlt α) : Nat := t.size

/-- Transcription of `Javlt::contains`. -/
def contains (t : Javlt α) (x : α) : Bool := t.root.contains x

/-- Transcription of `Javlt::as_vec_l_to_r` (an empty vector for an empty
tree, otherwise the root's left-to-right collection into a fresh vector). -/
def asVecLToR (t : Javlt α) : List α :=
  match t.root with
  | .nil => []
  | .node v h l r => Jtree.collectValuesLToR (.node v h l r) []

/-- Transcription of `Javlt::as_vec_r_to_l`. -/
def asVecRToL (t : Javlt α) : List α :=
  match t.root with
  | .nil => []
  | .node v h l r => Jtree.collectValuesRToL (.node v h l r) []

/-- Transcription of `Javlt::add_all_skipping_duplicates` (and its alias
`add_all`): add every element in order, discarding per-element errors. -/
def addAllSkippingDuplicates (t : Javlt α) (xs : List α) : Javlt α :=
  xs.foldl (fun s x => (s.add x).2) t

/-- Transcription of `Javlt::from_collection`. -/
def fromCollection (xs : List α) : Javlt α :=
  addAllSkippingDuplicates new xs

end Javlt

/-- Public mutating operation on the handle, for stating properties over
arbitrary operation sequences. -/
inductive Op (α : Type) where
  | add (v : α) : Op α
  | drop (v : α) : Op α
deriving DecidableEq, Repr

variable {α : Type} [LinearOrder α]

/-- Apply one operation, keeping the resulting handle. -/
def applyOp (t : Javlt α) : Op α → Javlt α
  | .add v => (t.add v).2
  | .drop v => (t.dropValue v).2

/-- Run a sequence of operations from a given handle. -/
def runOpsFrom (t : Javlt α) : List (Op α) → Javlt α
  | [] => t
  | o :: ops => runOpsFrom (applyOp t o) ops

/-- Run a sequence of operations from the empty tree. -/
def runOps (ops : List (Op α)) : Javlt α := runOpsFrom Javlt.new ops

/-- Number of `add` calls in the sequence that return success, replaying from
the given handle. -/
def addSuccesses (t : Javlt α) : List (Op α) → Nat
  | [] => 0
  | .add v :: ops =>
    (match (t.add v).1 with | .ok _ => 1 | .error _ => 0) + addSuccesses (t.add v).2 ops
  | .drop v :: ops => addSuccesses (t.dropValue v).2 ops

/-- Number of `drop_value` calls in the sequence that return success,
replaying from the given handle. -/
def dropSuccesses (t : Javlt α) : List (Op α) → Nat
  | [] => 0
  | .add v :: ops => dropSuccesses (t.add v).2 ops
  | .drop v :: ops =>
    (match (t.dropValue v).1 with | .ok _ => 1 | .error _ => 0) + dropSuccesses (t.dropValue v).2 ops

namespace Javlt

variable {α : Type} [LinearOrder α]

/-- State invariant of a handle: the in-order value sequence is strictly
increasing and the cached `size` equals the number of stored values.  It holds
for the empty tree and is preserved by `add` and `dropValue` (proved below). -/
def Inv (t : Javlt α) : Prop :=
  List.Pairwise (· < ·) t.root.toListLR ∧ t.size = t.root.toListLR.length

end Javlt

/-- Concrete operation sequence: eight insertions followed by one deletion.
After the deletion the tree violates the AVL balance condition (see the C1
theorem below): the root-level rebalance meets a right child whose balancing
factor is 0 and routes it into the double-rotation branch, which leaves the
old right child with a balancing factor of 2. -/
def c1ops : List (Op Int) :=
  [.add 0, .add 1, .add 2, .add 5, .add 6, .add 4, .add 3, .add 7, .drop 0]

/-- Left child of `c2tree`. -/
def c2left : Jtree Int := .node 1 1 .nil .nil

/-- Left child of the right child of `c2tree`. -/
def c2rl : Jtree Int := .node 4 2 (.node 3 1 .nil .nil) .nil

/-- Right child of the right child of `c2tree`. -/
def c2rr : Jtree Int := .node 6 2 .nil (.node 7 1 .nil .nil)

/-- Right child of `c2tree`: balancing factor 0, AVL-balanced. -/
def c2right : Jtree Int := .node 5 3 c2rl c2rr

/-- Concrete subtree with balancing factor 2 whose right child has balancing
factor 0 and whose children are AVL-balanced search trees with correct cached
heights; this is exactly the state `Node::rebalance` sees at the root while
`drop_value(0)` runs on the tree built from adds 0,1,2,5,6,4,3,7. -/
def c2tree : Jtree Int := .node 2 4 c2left c2right

/-- Concrete AVL-balanced search tree with correct cached heights whose root
has two non-leaf children; deleting the root value 10 writes the successor 12
into the root but the subsequent rebalance rotates 5 into the root position. -/
def c7tree : Jtree Int :=
  .node 10 4
    (.node 5 3 (.node 3 2 (.node 2 1 .nil .nil) (.node 4 1 .nil .nil))
      (.node 7 1 .nil .nil))
    (.node 15 2 (.node 12 1 .nil .nil) .nil)

/-- Tree built from the collection of the C8 scenario. -/
def c8pre : Javlt Int := Javlt.fromCollection [2, 1, 6, 0, 4, 7, 3, 5]

namespace Jtree

variable {α : Type} [LinearOrder α]

theorem collectValuesLToR_eq (t : Jtree α) :
    ∀ acc : List α, collectValuesLToR t acc = acc ++ toListLR t := by
  induction t with
  | nil => intro acc; simp [collectValuesLToR, toListLR]
  | node v h l r ihl ihr =>
    intro acc
    simp [collectValuesLToR, toListLR, ihl, ihr]

theorem collectValuesRToL_eq (t : Jtree α) :
    ∀ acc : List α, collectValuesRToL t acc = acc ++ toListRL t := by
  induction t with
  | nil => intro acc; simp [collectValuesRToL, toListRL]
  | node v h l r ihl ihr =>
    intro acc
    simp [collectValuesRToL, toListRL, ihl, ihr]

theorem toListRL_eq_reverse (t : Jtree α) : toListRL t = (toListLR t).reverse := by
  induction t with
  | nil => rfl
  | node v h l r ihl ihr => simp [toListRL, toListLR, ihl, ihr]

theorem toListLR_setHeight (t : Jtree α) : (setHeight t).toListLR = t.toListLR := by
  cases t <;> rfl

theorem toListLR_node (v : α) (h : Nat) (l r : Jtree α) :
    (node v h l r).toListLR = l.toListLR ++ v :: r.toListLR := by
  simp [toListLR]

theorem toListLR_rebalance (t : Jtree α) : (rebalance t).toListLR = t.toListLR := by
  cases t with
  | nil => rfl
  | node v h l r =>
    simp only [rebalance]
    repeat' split
    all_goals simp_all [toListLR, List.append_assoc]

end Jtree

namespace JtreeLists

variable {α : Type} [LinearOrder α]

theorem orderedInsert_append_of_lt (x v : α) (L1 L2 : List α) (hxv : x < v) :
    List.orderedInsert (· ≤ ·) x (L1 ++ v :: L2) =
      List.orderedInsert (· ≤ ·) x L1 ++ v :: L2 := by
  induction L1 with
  | nil => simp [List.orderedInsert, le_of_lt hxv]
  | cons a L1 ih =>
    simp only [List.cons_append, List.orderedInsert]
    split
    · rfl
    · simp [ih]

theorem orderedInsert_append_of_gt (x v : α) (L1 L2 : List α) (hvx : v < x)
    (hall : ∀ a ∈ L1, a < x) :
    List.orderedInsert (· ≤ ·) x (L1 ++ v :: L2) =
      L1 ++ v :: List.orderedInsert (· ≤ ·) x L2 := by
  induction L1 with
  | nil => simp [List.orderedInsert, not_le.mpr hvx]
  | cons a L1 ih =>
    have ha : a < x := hall a (by simp)
    simp only [List.cons_append, List.orderedInsert, not_le.mpr ha, if_false]
    simp only [List.cons.injEq, true_and]
    exact ih (fun b hb => hall b (by simp [hb]))

end JtreeLists

namespace Jtree

variable {α : Type} [LinearOrder α]

theorem add_spec (t : Jtree α) (x : α) :
    ((add t x).1 = .ok () ∨ (add t x).1 = .error .ValueAlreadyStored)
    ∧ ((add t x).1 = .error .ValueAlreadyStored ↔ contains t x = true)
    ∧ (∀ e, (add t x).1 = .error e → (add t x).2 = t) := by
  induction t with
  | nil =>
    refine ⟨Or.inl rfl, ?_, ?_⟩
    · simp [add, contains]
    · intro e he; simp [add] at he
  | node v h l r ihl ihr =>
    by_cases hxv : x = v
    · refine ⟨Or.inr (by simp [add, hxv]), ?_, ?_⟩
      · simp [add, contains, hxv]
      · intro e he; simp [add, hxv]
    · by_cases hlt : x < v
      · rcases hal : add l x with ⟨res, l'⟩
        cases res with
        | ok u =>
          refine ⟨Or.inl (by simp [add, hxv, hlt, hal]), ?_, ?_⟩
          · rw [hal] at ihl
            simp [add, contains, hxv, hlt, hal, ← ihl.2.1]
          · intro e he; simp [add, hxv, hlt, hal] at he
        | error e0 =>
          rw [hal] at ihl
          have he0 : e0 = TreeError.ValueAlreadyStored := by
            rcases ihl.1 with h1 | h1 <;> simpa using h1
          subst he0
          have hunch : l' = l := by simpa using ihl.2.2 TreeError.ValueAlreadyStored rfl
          have hcl : contains l x = true := ihl.2.1.mp rfl
          refine ⟨Or.inr (by simp [add, hxv, hlt, hal]), ?_, ?_⟩
          · simp [add, contains, hxv, hlt, hal, hcl]
          · intro e he; simp [add, hxv, hlt, hal, hunch]
      · rcases har : add r x with ⟨res, r'⟩
        cases res with
        | ok u =>
          refine ⟨Or.inl (by simp [add, hxv, hlt, har]), ?_, ?_⟩
          · rw [har] at ihr
            simp [add, contains, hxv, hlt, har, ← ihr.2.1]
          · intro e he; simp [add, hxv, hlt, har] at he
        | error e0 =>
          rw [har] at ihr
          have he0 : e0 = TreeError.ValueAlreadyStored := by
            rcases ihr.1 with h1 | h1 <;> simpa using h1
          subst he0
          have hunch : r' = r := by simpa using ihr.2.2 TreeError.ValueAlreadyStored rfl
          have hcr : contains r x = true := ihr.2.1.mp rfl
          refine ⟨Or.inr (by simp [add, hxv, hlt, har]), ?_, ?_⟩
          · simp [add, contains, hxv, hlt, har, hcr]
          · intro e he; simp [add, hxv, hlt, har, hunch]

theorem add_ok_toList (t : Jtree α) (x : α)
    (hs : List.Pairwise (· < ·) t.toListLR) (hok : (add t x).1 = .ok ()) :
    (add t x).2.toListLR = List.orderedInsert (· ≤ ·) x t.toListLR := by
  induction t with
  | nil => simp [add, toListLR, List.orderedInsert]
  | node v h l r ihl ihr =>
    rw [toListLR, List.pairwise_append] at hs
    obtain ⟨hsl, hsr', hcross⟩ := hs
    have hsr : List.Pairwise (· < ·) r.toListLR := hsr'.sublist (List.sublist_cons_self v _)
    have hvr : ∀ b ∈ r.toListLR, v < b := fun b hb => List.rel_of_pairwise_cons hsr' hb
    by_cases hxv : x = v
    · simp [add, hxv] at hok
    · by_cases hlt : x < v
      · rcases hal : add l x with ⟨res, l'⟩
        cases res with
        | error e0 => simp [add, hxv, hlt, hal] at hok
        | ok u =>
          have ihl' := ihl hsl (by simp [hal])
          rw [hal] at ihl'
          simp only [add, hxv, hlt, if_false, if_true, hal]
          rw [toListLR_setHeight, toListLR_rebalance]
          simp only [toListLR]
          rw [ihl', JtreeLists.orderedInsert_append_of_lt x v _ _ hlt]
      · have hvx : v < x := lt_of_le_of_ne (not_lt.mp hlt) (Ne.symm hxv)
        rcases har : add r x with ⟨res, r'⟩
        cases res with
        | error e0 => simp [add, hxv, hlt, har] at hok
        | ok u =>
          have ihr' := ihr hsr (by simp [har])
          rw [har] at ihr'
          simp only [add, hxv, hlt, if_false, if_true, har]
          rw [toListLR_setHeight, toListLR_rebalance]
          simp only [toListLR]
          rw [ihr', JtreeLists.orderedInsert_append_of_gt x v _ _ hvx]
          intro a ha
          exact lt_trans (hcross a ha v (by simp)) hvx

end Jtree

namespace Jtree

variable {α : Type} [LinearOrder α]

theorem contains_iff_mem (t : Jtree α) (x : α)
    (hs : List.Pairwise (· < ·) t.toListLR) :
    contains t x = true ↔ x ∈ t.toListLR := by
  induction t with
  | nil => simp [contains, toListLR]
  | node v h l r ihl ihr =>
    rw [toListLR, List.pairwise_append] at hs
    obtain ⟨hsl, hsr', hcross⟩ := hs
    have hsr := hsr'.sublist (List.sublist_cons_self v _)
    have hvr : ∀ b ∈ r.toListLR, v < b := fun b hb => List.rel_of_pairwise_cons hsr' hb
    have hlv : ∀ a ∈ l.toListLR, a < v := fun a ha => hcross a ha v (by simp)
    by_cases hxv : x = v
    · subst hxv; simp [contains, toListLR]
    · by_cases hlt : x < v
      · have h1 : contains (node v h l r) x = contains l x := by simp [contains, hxv, hlt]
        rw [h1, ihl hsl, toListLR]
        simp only [List.mem_append, List.mem_cons]
        constructor
        · exact fun hm => Or.inl hm
        · rintro (hm | hm | hm)
          · exact hm
          · exact absurd hm hxv
          · exact absurd hlt (not_lt.mpr (le_of_lt (hvr x hm)))
      · have hvx : v < x := lt_of_le_of_ne (not_lt.mp hlt) (Ne.symm hxv)
        have h1 : contains (node v h l r) x = contains r x := by simp [contains, hxv, hlt]
        rw [h1, ihr hsr, toListLR]
        simp only [List.mem_append, List.mem_cons]
        constructor
        · exact fun hm => Or.inr (Or.inr hm)
        · rintro (hm | hm | hm)
          · exact absurd (hlv x hm) (not_lt.mpr (le_of_lt hvx))
          · exact absurd hm hxv
          · exact hm

theorem drop_fst_ok_iff (t : Jtree α) (x : α) :
    (dropValue t x).1 = .ok () ↔ contains t x = true := by
  induction t with
  | nil => simp [dropValue, contains]
  | node v h l r ihl ihr =>
    by_cases hlt : x < v
    · have hxv : x ≠ v := ne_of_lt hlt
      rcases hdl : dropValue l x with ⟨res, l'⟩
      cases res with
      | ok u =>
        have hcl : contains l x = true := by rw [← ihl, hdl]
        simp [dropValue, hlt, hdl, contains, hxv, hcl]
      | error e =>
        have hcl : ¬ contains l x = true := by rw [← ihl, hdl]; simp
        simp [dropValue, hlt, hdl, contains, hxv, hcl]
    · by_cases hvx : v < x
      · have hxv : x ≠ v := (ne_of_lt hvx).symm
        rcases hdr : dropValue r x with ⟨res, r'⟩
        cases res with
        | ok u =>
          have hcr : contains r x = true := by rw [← ihr, hdr]
          simp [dropValue, hlt, hvx, hdr, contains, hxv, hcr]
        | error e =>
          have hcr : ¬ contains r x = true := by rw [← ihr, hdr]; simp
          simp [dropValue, hlt, hvx, hdr, contains, hxv, hcr]
      · have hxv : x = v := le_antisymm (not_lt.mp hvx) (not_lt.mp hlt)
        subst hxv
        cases l with
        | nil =>
          cases r with
          | nil => simp [dropValue, contains]
          | node rv rh rl rr => simp [dropValue, contains]
        | node lv lh ll lr =>
          cases r with
          | nil => simp [dropValue, contains]
          | node rv rh rl rr =>
            simp only [dropValue, lt_irrefl, if_false, contains, if_true]
            split
            · simp
            · split <;> simp

theorem drop_not_contains (t : Jtree α) (x : α) (hc : contains t x = false) :
    dropValue t x = (.error .ValueNotFound, t) := by
  induction t with
  | nil => simp [dropValue]
  | node v h l r ihl ihr =>
    by_cases hlt : x < v
    · have hcl : contains l x = false := by
        simpa [contains, ne_of_lt hlt, hlt] using hc
      simp [dropValue, hlt, ihl hcl]
    · by_cases hvx : v < x
      · have hcr : contains r x = false := by
          simpa [contains, (ne_of_lt hvx).symm, hlt, hvx] using hc
        simp [dropValue, hlt, hvx, ihr hcr]
      · have hxv : x = v := le_antisymm (not_lt.mp hvx) (not_lt.mp hlt)
        subst hxv
        simp [contains] at hc

end Jtree

namespace Jtree

variable {α : Type} [LinearOrder α]

theorem isLeaf_children {v : α} {h : Nat} {l r : Jtree α}
    (hl : isLeaf (node v h l r) = true) : l = nil ∧ r = nil := by
  cases l <;> cases r <;> simp_all [isLeaf]

theorem toListLR_leastFrom (l : Jtree α) :
    ∀ (v : α) (rest : List α), ∃ tl, toListLR l ++ v :: rest = leastFrom v l :: tl := by
  induction l with
  | nil => intro v rest; exact ⟨rest, by simp [toListLR, leastFrom]⟩
  | node v' h' l' r' ihl ihr =>
    intro v rest
    obtain ⟨tl, htl⟩ := ihl v' (toListLR r' ++ v :: rest)
    refine ⟨tl, ?_⟩
    rw [toListLR, leastFrom]
    simpa [List.append_assoc] using htl

theorem dropValue_case_rightleaf {v : α} {hh : Nat} {lv : α} {lh : Nat}
    {ll lr : Jtree α} {rv : α} {rh : Nat} :
    dropValue (node v hh (node lv lh ll lr) (node rv rh nil nil)) v =
      (.ok (), setHeight (rebalance (node rv hh (node lv lh ll lr) nil))) := by
  conv_lhs => rw [dropValue]
  simp [isLeaf]

theorem dropValue_case_leftleaf {v : α} {hh : Nat} {lv : α} {lh : Nat}
    {rv : α} {rh : Nat} {rl rr : Jtree α}
    (h1 : isLeaf (node rv rh rl rr) = false) :
    dropValue (node v hh (node lv lh nil nil) (node rv rh rl rr)) v =
      (.ok (), setHeight (rebalance (node lv hh nil (node rv rh rl rr)))) := by
  conv_lhs => rw [dropValue]
  simp [h1]
  simp [isLeaf]

theorem dropValue_case_d {v : α} {hh : Nat} {lv : α} {lh : Nat} {ll lr : Jtree α}
    {rv : α} {rh : Nat} {rl rr : Jtree α}
    (h1 : isLeaf (node rv rh rl rr) = false) (h2 : isLeaf (node lv lh ll lr) = false) :
    dropValue (node v hh (node lv lh ll lr) (node rv rh rl rr)) v =
      (.ok (), setHeight (rebalance (node (leastFrom rv rl) hh (node lv lh ll lr)
        (dropValue (node rv rh rl rr) (leastFrom rv rl)).2))) := by
  conv_lhs => rw [dropValue]
  simp [h1, h2]

theorem drop_ok_toList (t : Jtree α) :
    ∀ x : α, List.Pairwise (· < ·) t.toListLR → contains t x = true →
      (dropValue t x).2.toListLR = t.toListLR.erase x := by
  induction t with
  | nil => intro x hs hc; simp [contains] at hc
  | node v hh l r ihl ihr =>
    intro x hs hc
    rw [toListLR, List.pairwise_append] at hs
    obtain ⟨hsl, hsr', hcross⟩ := hs
    have hsr := hsr'.sublist (List.sublist_cons_self v _)
    have hvr : ∀ b ∈ r.toListLR, v < b := fun b hb => List.rel_of_pairwise_cons hsr' hb
    have hlv : ∀ a ∈ l.toListLR, a < v := fun a ha => hcross a ha v (by simp)
    have hvnl : v ∉ l.toListLR := fun hm => absurd (hlv v hm) (lt_irrefl v)
    by_cases hlt : x < v
    · have hxv : x ≠ v := ne_of_lt hlt
      have hcl : contains l x = true := by simpa [contains, hxv, hlt] using hc
      have hml : x ∈ l.toListLR := (contains_iff_mem l x hsl).mp hcl
      rcases hdl : dropValue l x with ⟨res, l'⟩
      cases res with
      | error e =>
        exfalso
        have hok := (drop_fst_ok_iff l x).mpr hcl
        rw [hdl] at hok
        simp at hok
      | ok u =>
        have ihl' := ihl x hsl hcl
        rw [hdl] at ihl'
        simp only [dropValue, hlt, if_true, hdl]
        rw [toListLR_setHeight, toListLR_rebalance]
        rw [toListLR_node, toListLR_node, ihl', List.erase_append_left _ hml]
    · by_cases hvx : v < x
      · have hxv : x ≠ v := (ne_of_lt hvx).symm
        have hcr : contains r x = true := by simpa [contains, hxv, hlt, hvx] using hc
        have hmr : x ∈ r.toListLR := (contains_iff_mem r x hsr).mp hcr
        have hxnl : x ∉ l.toListLR := fun hm =>
          absurd (lt_trans (hlv x hm) hvx) (lt_irrefl x)
        rcases hdr : dropValue r x with ⟨res, r'⟩
        cases res with
        | error e =>
          exfalso
          have hok := (drop_fst_ok_iff r x).mpr hcr
          rw [hdr] at hok
          simp at hok
        | ok u =>
          have ihr' := ihr x hsr hcr
          rw [hdr] at ihr'
          simp only [dropValue, hlt, hvx, if_true, if_false, hdr]
          rw [toListLR_setHeight, toListLR_rebalance]
          rw [toListLR_node, toListLR_node, ihr', List.erase_append_right _ hxnl,
            List.erase_cons_tail]
          simp [Ne.symm hxv]
      · have hxv : x = v := le_antisymm (not_lt.mp hvx) (not_lt.mp hlt)
        subst hxv
        cases l with
        | nil =>
          cases r with
          | nil => simp [dropValue, toListLR]
          | node rv rh rl rr =>
            simp [dropValue, toListLR, List.erase_cons_head]
        | node lv lh ll lr =>
          cases r with
          | nil =>
            simp only [dropValue, lt_irrefl, if_false]
            conv_rhs => rw [toListLR_node]
            rw [List.erase_append_right _ hvnl, List.erase_cons_head]
            simp [toListLR]
          | node rv rh rl rr =>
            conv_rhs => rw [toListLR_node]
            rw [List.erase_append_right _ hvnl, List.erase_cons_head]
            by_cases hleaf : isLeaf (node rv rh rl rr) = true
            · obtain ⟨hrl, hrr⟩ := isLeaf_children hleaf
              subst hrl; subst hrr
              rw [dropValue_case_rightleaf]
              rw [toListLR_setHeight, toListLR_rebalance]
              simp [toListLR]
            · have h1 : isLeaf (node rv rh rl rr) = false := by simpa using hleaf
              by_cases hleaf2 : isLeaf (node lv lh ll lr) = true
              · obtain ⟨hll, hlr⟩ := isLeaf_children hleaf2
                subst hll; subst hlr
                rw [dropValue_case_leftleaf h1]
                rw [toListLR_setHeight, toListLR_rebalance]
                simp [toListLR]
              · have h2 : isLeaf (node lv lh ll lr) = false := by simpa using hleaf2
                rw [dropValue_case_d h1 h2]
                rw [toListLR_setHeight, toListLR_rebalance]
                obtain ⟨tl, htl⟩ := toListLR_leastFrom rl rv (toListLR rr)
                have hLRr : toListLR (node rv rh rl rr) = leastFrom rv rl :: tl := by
                  rw [toListLR_node]; exact htl
                have hmem : leastFrom rv rl ∈ toListLR (node rv rh rl rr) := by
                  rw [hLRr]; simp
                have hcm : contains (node rv rh rl rr) (leastFrom rv rl) = true :=
                  (contains_iff_mem _ _ hsr).mpr hmem
                have ihr' := ihr (leastFrom rv rl) hsr hcm
                rw [toListLR_node, ihr', hLRr, List.erase_cons_head]

end Jtree

namespace JtreeLists

variable {α : Type} [LinearOrder α]

theorem pairwise_lt_of_le_nodup (L : List α)
    (h1 : List.Pairwise (· ≤ ·) L) (h2 : L.Nodup) : List.Pairwise (· < ·) L :=
  (h1.and h2).imp (fun hab => lt_of_le_of_ne hab.1 hab.2)

theorem pairwise_orderedInsert (x : α) (L : List α)
    (h : List.Pairwise (· < ·) L) (hx : x ∉ L) :
    List.Pairwise (· < ·) (List.orderedInsert (· ≤ ·) x L) := by
  have hle : List.Sorted (· ≤ ·) L := h.imp le_of_lt
  have hs : List.Sorted (· ≤ ·) (List.orderedInsert (· ≤ ·) x L) :=
    hle.orderedInsert x L
  have hperm := List.perm_orderedInsert (· ≤ ·) x L
  have hnodup : (x :: L).Nodup := by
    rw [List.nodup_cons]; exact ⟨hx, h.imp ne_of_lt⟩
  exact pairwise_lt_of_le_nodup _ hs (hperm.symm.nodup hnodup)

theorem pairwise_erase (x : α) (L : List α) (h : List.Pairwise (· < ·) L) :
    List.Pairwise (· < ·) (L.erase x) :=
  List.Pairwise.sublist (List.erase_sublist x L) h

end JtreeLists

namespace Javlt

variable {α : Type} [LinearOrder α]

theorem asVecLToR_eq (t : Javlt α) : t.asVecLToR = t.root.toListLR := by
  rcases t with ⟨sz, root⟩
  cases root with
  | nil => rfl
  | node v h l r => simp [asVecLToR, Jtree.collectValuesLToR_eq]

theorem asVecRToL_eq (t : Javlt α) : t.asVecRToL = t.root.toListRL := by
  rcases t with ⟨sz, root⟩
  cases root with
  | nil => rfl
  | node v h l r => simp [asVecRToL, Jtree.collectValuesRToL_eq]

theorem inv_new : Inv (new : Javlt α) := by
  constructor <;> simp [new, Inv, Jtree.toListLR]

theorem add_inv (t : Javlt α) (x : α) (h : Inv t) :
    Inv (t.add x).2
    ∧ ((t.add x).1 = .ok () →
        (t.add x).2.size = t.size + 1
        ∧ (t.add x).2.root.toListLR = List.orderedInsert (· ≤ ·) x t.root.toListLR)
    ∧ (∀ e, (t.add x).1 = .error e → (t.add x).2 = t) := by
  rcases ha : Jtree.add t.root x with ⟨res, root'⟩
  cases res with
  | error e =>
    have hunch : root' = t.root := by
      have := (Jtree.add_spec t.root x).2.2 e (by rw [ha])
      rw [ha] at this; exact this
    have hres : t.add x = (.error e, t) := by
      rcases t with ⟨sz, root⟩
      simp only [add, ha, hunch]
    rw [hres]
    exact ⟨h, by simp, fun e' he' => rfl⟩
  | ok u =>
    cases u
    have hlist : root'.toListLR = List.orderedInsert (· ≤ ·) x t.root.toListLR := by
      have := Jtree.add_ok_toList t.root x h.1 (by rw [ha])
      rw [ha] at this; exact this
    have hcontains : ¬ Jtree.contains t.root x = true := by
      intro hcon
      have := (Jtree.add_spec t.root x).2.1.mpr hcon
      rw [ha] at this
      simp at this
    have hnotmem : x ∉ t.root.toListLR :=
      fun hm => hcontains ((Jtree.contains_iff_mem t.root x h.1).mpr hm)
    have hres : t.add x = (.ok (), ⟨t.size + 1, root'⟩) := by
      simp only [add, ha]
    rw [hres]
    refine ⟨⟨?_, ?_⟩, ?_, ?_⟩
    · simpa [hlist] using JtreeLists.pairwise_orderedInsert x t.root.toListLR h.1 hnotmem
    · simp [hlist, List.orderedInsert_length, h.2]
    · intro _; exact ⟨rfl, hlist⟩
    · intro e he; simp at he

theorem drop_inv (t : Javlt α) (x : α) (h : Inv t) :
    Inv (t.dropValue x).2
    ∧ ((t.dropValue x).1 = .ok () →
        t.size = (t.dropValue x).2.size + 1
        ∧ (t.dropValue x).2.root.toListLR = t.root.toListLR.erase x)
    ∧ ((t.dropValue x).1 ≠ .ok () →
        (t.dropValue x).2 = t ∧ (t.dropValue x).1 = .error .ValueNotFound) := by
  rcases hd : Jtree.dropValue t.root x with ⟨res, root'⟩
  cases res with
  | error e =>
    have hcon : ¬ Jtree.contains t.root x = true := by
      intro hcon
      have := (Jtree.drop_fst_ok_iff t.root x).mpr hcon
      rw [hd] at this; simp at this
    have hunch := Jtree.drop_not_contains t.root x (by simpa using hcon)
    rw [hd] at hunch
    have hroot : root' = t.root := by
      have := congrArg Prod.snd hunch; simpa using this
    have hres : t.dropValue x = (.error .ValueNotFound, t) := by
      rcases t with ⟨sz, root⟩
      simp only [dropValue, hd, hroot]
    rw [hres]
    exact ⟨h, by simp, fun _ => ⟨rfl, rfl⟩⟩
  | ok u =>
    cases u
    have hcon : Jtree.contains t.root x = true := by
      have := (Jtree.drop_fst_ok_iff t.root x).mp (by rw [hd])
      exact this
    have hmem : x ∈ t.root.toListLR := (Jtree.contains_iff_mem t.root x h.1).mp hcon
    have hlist : root'.toListLR = t.root.toListLR.erase x := by
      have := Jtree.drop_ok_toList t.root x h.1 hcon
      rw [hd] at this; exact this
    have hlen : t.root.toListLR.length ≥ 1 := by
      cases hmem' : t.root.toListLR with
      | nil => rw [hmem'] at hmem; simp at hmem
      | cons a as => simp [hmem']
    have hres : t.dropValue x = (.ok (), ⟨t.size - 1, root'⟩) := by
      simp only [dropValue, hd]
    rw [hres]
    refine ⟨⟨?_, ?_⟩, ?_, ?_⟩
    · simpa [hlist] using JtreeLists.pairwise_erase x t.root.toListLR h.1
    · simp only [hlist, List.length_erase_of_mem hmem, h.2]
    · intro _
      refine ⟨?_, hlist⟩
      have hsz : t.size = t.root.toListLR.length := h.2
      show t.size = t.size - 1 + 1
      omega
    · intro hne; exact absurd rfl hne

theorem runOpsFrom_inv (ops : List (Op α)) :
    ∀ t : Javlt α, Inv t → Inv (runOpsFrom t ops) := by
  induction ops with
  | nil => intro t ht; exact ht
  | cons o ops ih =>
    intro t ht
    cases o with
    | add v => exact ih _ (add_inv t v ht).1
    | drop v => exact ih _ (drop_inv t v ht).1

theorem runOpsFrom_size (ops : List (Op α)) :
    ∀ t : Javlt α, Inv t →
      (runOpsFrom t ops).size + dropSuccesses t ops = t.size + addSuccesses t ops := by
  induction ops with
  | nil => intro t ht; simp [runOpsFrom, addSuccesses, dropSuccesses]
  | cons o ops ih =>
    intro t ht
    cases o with
    | add v =>
      have ha := add_inv t v ht
      have ih' := ih (t.add v).2 ha.1
      rcases hres : (t.add v).1 with e | u
      · have hunch := ha.2.2 e hres
        simp only [runOpsFrom, applyOp, addSuccesses, dropSuccesses, hres]
        rw [hunch] at ih' ⊢
        omega
      · cases u
        have hsz := (ha.2.1 hres).1
        simp only [runOpsFrom, applyOp, addSuccesses, dropSuccesses, hres]
        omega
    | drop v =>
      have hd := drop_inv t v ht
      have ih' := ih (t.dropValue v).2 hd.1
      rcases hres : (t.dropValue v).1 with e | u
      · have hunch := (hd.2.2 (by rw [hres]; intro hc; cases hc)).1
        simp only [runOpsFrom, applyOp, addSuccesses, dropSuccesses, hres]
        rw [hunch] at ih' ⊢
        omega
      · cases u
        have hsz := (hd.2.1 hres).1
        simp only [runOpsFrom, applyOp, addSuccesses, dropSuccesses, hres]
        omega

end Javlt

namespace Jtree

variable {α : Type} [LinearOrder α]

theorem bst_of_pairwise (t : Jtree α)
    (h : List.Pairwise (· < ·) t.toListLR) : Bst t := by
  induction t with
  | nil => trivial
  | node v hh l r ihl ihr =>
    rw [toListLR, List.pairwise_append] at h
    obtain ⟨hsl, hsr', hcross⟩ := h
    have hsr := hsr'.sublist (List.sublist_cons_self v _)
    exact ⟨fun y hy => hcross y hy v (by simp),
      fun y hy => List.rel_of_pairwise_cons hsr' hy, ihl hsl, ihr hsr⟩

end Jtree

namespace Javlt

variable {α : Type} [LinearOrder α]

theorem add_contained (t : Javlt α) (x : α) (hc : t.contains x = true) :
    t.add x = (.error .ValueAlreadyStored, t) := by
  rcases ha : Jtree.add t.root x with ⟨res, root'⟩
  have hfst : res = .error .ValueAlreadyStored := by
    have := (Jtree.add_spec t.root x).2.1.mpr hc
    rw [ha] at this; exact this
  subst hfst
  have hroot : root' = t.root := by
    have := (Jtree.add_spec t.root x).2.2 TreeError.ValueAlreadyStored (by rw [ha])
    rw [ha] at this; exact this
  rcases t with ⟨sz, root⟩
  simp only [add, ha, hroot]

theorem add_fresh (t : Javlt α) (x : α)
    (hs : List.Pairwise (· < ·) t.root.toListLR) (hc : t.contains x = false) :
    (t.add x).1 = .ok ()
    ∧ (t.add x).2.size = t.size + 1
    ∧ (t.add x).2.root.toListLR = List.orderedInsert (· ≤ ·) x t.root.toListLR := by
  have hc' : Jtree.contains t.root x = false := hc
  rcases ha : Jtree.add t.root x with ⟨res, root'⟩
  cases res with
  | error e =>
    exfalso
    have h1 : e = TreeError.ValueAlreadyStored := by
      have := (Jtree.add_spec t.root x).1
      rw [ha] at this
      rcases this with h1 | h1 <;> simpa using h1
    subst h1
    have hcon := (Jtree.add_spec t.root x).2.1.mp (by rw [ha])
    rw [hcon] at hc'
    cases hc'
  | ok u =>
    refine ⟨by simp [add, ha], by simp [add, ha], ?_⟩
    have hlist := Jtree.add_ok_toList t.root x hs (by rw [ha])
    rw [ha] at hlist
    simpa [add, ha] using hlist

end Javlt

section Claims

variable {α : Type} [LinearOrder α]

/-- C3: for every sequence of add and drop_value operations on a Javlt tree
starting from empty, after each operation as_vec_l_to_r returns a strictly
ascending sequence containing no duplicate values, and every node's left
subtree holds only values strictly less than the node's value while its right
subtree holds only values strictly greater. -/
theorem c3_order_invariant (ops : List (Op α)) :
    List.Pairwise (· < ·) ((runOps ops).asVecLToR)
    ∧ Jtree.Bst (runOps ops).root := by
  have hinv := Javlt.runOpsFrom_inv ops Javlt.new Javlt.inv_new
  have h1 : List.Pairwise (· < ·) ((runOps ops).root.toListLR) := hinv.1
  exact ⟨by rw [Javlt.asVecLToR_eq]; exact h1, Jtree.bst_of_pairwise _ h1⟩

/-- C3 witness: the invariant instantiated at a concrete operation sequence. -/
theorem c3_order_invariant_witness :
    List.Pairwise (· < ·) ((runOps [Op.add (2 : Int), Op.add 1, Op.add 3, Op.drop 2]).asVecLToR)
    ∧ Jtree.Bst (runOps [Op.add (2 : Int), Op.add 1, Op.add 3, Op.drop 2]).root :=
  c3_order_invariant [Op.add (2 : Int), Op.add 1, Op.add 3, Op.drop 2]

/-- C4: for every Javlt tree reachable by a sequence of operations from empty,
get_size() equals the number of successful add calls minus the number of
successful drop_value calls; each successful add increases size by exactly one
and each failed add leaves the tree (hence its size) unchanged. -/
theorem c4_size_correct (ops : List (Op α)) :
    (runOps ops).getSize = addSuccesses Javlt.new ops - dropSuccesses Javlt.new ops
    ∧ ∀ (t : Javlt α) (v : α),
        ((t.add v).1 = .ok () → (t.add v).2.getSize = t.getSize + 1)
        ∧ (∀ e, (t.add v).1 = .error e → (t.add v).2 = t) := by
  constructor
  · have h := Javlt.runOpsFrom_size ops Javlt.new Javlt.inv_new
    have h0 : (Javlt.new : Javlt α).size = 0 := rfl
    rw [h0] at h
    show (runOpsFrom Javlt.new ops).size =
      addSuccesses Javlt.new ops - dropSuccesses Javlt.new ops
    omega
  · intro t v
    constructor
    · intro hok
      rcases ha : Jtree.add t.root v with ⟨res, root'⟩
      cases res with
      | ok u => simp [Javlt.add, ha, Javlt.getSize]
      | error e => simp [Javlt.add, ha] at hok
    · intro e he
      rcases ha : Jtree.add t.root v with ⟨res, root'⟩
      cases res with
      | ok u => simp [Javlt.add, ha] at he
      | error e2 =>
        have hroot : root' = t.root := by
          have := (Jtree.add_spec t.root v).2.2 e2 (by rw [ha])
          rw [ha] at this; exact this
        rcases t with ⟨sz, root⟩
        simp [Javlt.add, ha, hroot]

/-- C4 witness: the size equation instantiated at a concrete operation
sequence (two successful adds, one duplicate add, one successful drop), and
the add side effects at a concrete tree. -/
theorem c4_size_correct_witness :
    (runOps [Op.add (5 : Int), Op.add 5, Op.add 7, Op.drop 5]).getSize =
      addSuccesses Javlt.new [Op.add (5 : Int), Op.add 5, Op.add 7, Op.drop 5]
        - dropSuccesses Javlt.new [Op.add (5 : Int), Op.add 5, Op.add 7, Op.drop 5]
    ∧ ((Javlt.new.add (3 : Int)).1 = .ok () →
        (Javlt.new.add (3 : Int)).2.getSize = (Javlt.new : Javlt Int).getSize + 1) :=
  ⟨(c4_size_correct _).1, ((c4_size_correct [] ).2 Javlt.new 3).1⟩

/-- C5: adding a value the tree already contains returns ValueAlreadyStored
and leaves the handle unchanged; adding a fresh value to a well-formed tree
succeeds, a second add of the same value then fails with ValueAlreadyStored
leaving the tree unchanged, and the size grows by exactly one overall. -/
theorem c5_duplicate_rejection (u t : Javlt α) (y x : α)
    (hy : u.contains y = true)
    (hs : List.Pairwise (· < ·) t.asVecLToR) (hx : t.contains x = false) :
    (u.add y).1 = .error .ValueAlreadyStored ∧ (u.add y).2 = u
    ∧ (t.add x).1 = .ok ()
    ∧ (t.add x).2.getSize = t.getSize + 1
    ∧ ((t.add x).2.add x).1 = .error .ValueAlreadyStored
    ∧ ((t.add x).2.add x).2 = (t.add x).2 := by
  have hu := Javlt.add_contained u y hy
  have hs' : List.Pairwise (· < ·) t.root.toListLR := by rwa [Javlt.asVecLToR_eq] at hs
  have hf := Javlt.add_fresh t x hs' hx
  have hlist : (t.add x).2.root.toListLR =
      List.orderedInsert (· ≤ ·) x t.root.toListLR := hf.2.2
  have hx' : Jtree.contains t.root x = false := hx
  have hnotmem : x ∉ t.root.toListLR := by
    intro hm
    have hcm := (Jtree.contains_iff_mem t.root x hs').mpr hm
    rw [hx'] at hcm
    cases hcm
  have hsorted' : List.Pairwise (· < ·) (t.add x).2.root.toListLR := by
    rw [hlist]; exact JtreeLists.pairwise_orderedInsert x _ hs' hnotmem
  have hmem' : x ∈ (t.add x).2.root.toListLR := by
    rw [hlist]
    exact ((List.perm_orderedInsert (· ≤ ·) x _).mem_iff).mpr (by simp)
  have hcont' : (t.add x).2.contains x = true :=
    (Jtree.contains_iff_mem _ x hsorted').mpr hmem'
  have ht2 := Javlt.add_contained (t.add x).2 x hcont'
  exact ⟨by rw [hu], by rw [hu], hf.1, hf.2.1, by rw [ht2], by rw [ht2]⟩

/-- C5 witness: the double-insertion scenario at the tree {1,2,3} with the
contained value 2 and the fresh value 5. -/
theorem c5_duplicate_rejection_witness :
    ((Javlt.fromCollection ([1, 2, 3] : List Int)).add 2).1 = .error .ValueAlreadyStored
    ∧ ((Javlt.fromCollection ([1, 2, 3] : List Int)).add 5).1 = .ok ()
    ∧ (((Javlt.fromCollection ([1, 2, 3] : List Int)).add 5).2.add 5).1 =
        .error .ValueAlreadyStored
    ∧ ((Javlt.fromCollection ([1, 2, 3] : List Int)).add 5).2.getSize =
        (Javlt.fromCollection ([1, 2, 3] : List Int)).getSize + 1 := by
  have h := c5_duplicate_rejection (Javlt.fromCollection ([1, 2, 3] : List Int))
    (Javlt.fromCollection ([1, 2, 3] : List Int)) 2 5 (by decide) (by decide) (by decide)
  exact ⟨h.1, h.2.2.1, h.2.2.2.2.1, h.2.2.2.1⟩

/-- C6: for every tree (the empty tree included) and every value it does not
contain, drop_value returns ValueNotFound and leaves the handle completely
unmodified: same size, same contained values, same structure. -/
theorem c6_drop_absent_unchanged (t : Javlt α) (x : α) (h : t.contains x = false) :
    (t.dropValue x).1 = .error .ValueNotFound ∧ (t.dropValue x).2 = t := by
  have h' : Jtree.contains t.root x = false := h
  have hp := Jtree.drop_not_contains t.root x h'
  rcases t with ⟨sz, root⟩
  constructor <;> simp [Javlt.dropValue, hp]

/-- C6 witness: dropping the absent value 7 from the tree {1,2,3}, and the
empty-tree case via value 1. -/
theorem c6_drop_absent_unchanged_witness :
    ((Javlt.fromCollection ([1, 2, 3] : List Int)).dropValue 7).1 =
        .error .ValueNotFound
    ∧ ((Javlt.fromCollection ([1, 2, 3] : List Int)).dropValue 7).2 =
        Javlt.fromCollection ([1, 2, 3] : List Int)
    ∧ ((Javlt.new : Javlt Int).dropValue 1).1 = .error .ValueNotFound ∧
      ((Javlt.new : Javlt Int).dropValue 1).2 = Javlt.new :=
  ⟨(c6_drop_absent_unchanged (Javlt.fromCollection ([1, 2, 3] : List Int)) 7 (by decide)).1,
   (c6_drop_absent_unchanged (Javlt.fromCollection ([1, 2, 3] : List Int)) 7 (by decide)).2,
   (c6_drop_absent_unchanged (Javlt.new : Javlt Int) 1 (by decide)).1,
   (c6_drop_absent_unchanged (Javlt.new : Javlt Int) 1 (by decide)).2⟩

/-- C9: for every tree, as_vec_r_to_l returns exactly the reverse of
as_vec_l_to_r — the full descending sequence of all contained values. -/
theorem c9_reverse_traversal (t : Javlt α) :
    t.asVecRToL = t.asVecLToR.reverse := by
  rw [Javlt.asVecRToL_eq, Javlt.asVecLToR_eq, Jtree.toListRL_eq_reverse]

/-- C9 witness: the mirror relation at the concrete tree built from
[2,1,6,4,7,3]. -/
theorem c9_reverse_traversal_witness :
    (Javlt.fromCollection ([2, 1, 6, 4, 7, 3] : List Int)).asVecRToL =
      (Javlt.fromCollection ([2, 1, 6, 4, 7, 3] : List Int)).asVecLToR.reverse :=
  c9_reverse_traversal (Javlt.fromCollection ([2, 1, 6, 4, 7, 3] : List Int))

/-- C10: for every subtree satisfying the search-tree invariant, deleting its
least value always succeeds; hence the Result that Node::drop_value discards
in the both-children case (when it removes the in-order successor from the
right subtree) can never be ValueNotFound, the ignored error branch is
unreachable, and the success reported to the handle keeps the size accounting
correct. -/
theorem c10_successor_drop_never_fails (rv : α) (rh : Nat) (rl rr : Jtree α)
    (hs : List.Pairwise (· < ·) (Jtree.toListLR (Jtree.node rv rh rl rr))) :
    (Jtree.dropValue (Jtree.node rv rh rl rr) (Jtree.leastFrom rv rl)).1 = .ok () := by
  obtain ⟨tl, htl⟩ := Jtree.toListLR_leastFrom rl rv (Jtree.toListLR rr)
  have hmem : Jtree.leastFrom rv rl ∈ Jtree.toListLR (Jtree.node rv rh rl rr) := by
    rw [Jtree.toListLR_node, htl]; simp
  exact (Jtree.drop_fst_ok_iff _ _).mpr ((Jtree.contains_iff_mem _ _ hs).mpr hmem)

/-- C10 witness: the successor deletion at the concrete right subtree with
root 15 and left leaf 12 always reports success. -/
theorem c10_successor_drop_never_fails_witness :
    (Jtree.dropValue (Jtree.node (15 : Int) 2 (Jtree.node 12 1 .nil .nil) .nil)
      (Jtree.leastFrom 15 (Jtree.node 12 1 .nil .nil))).1 = .ok () :=
  c10_successor_drop_never_fails 15 2 (Jtree.node 12 1 .nil .nil) .nil (by decide)

end Claims

section ClaimsConcrete

/-- C1: the claim that every node satisfies the AVL balance condition after
each operation fails on the code.  The tree built by the eight adds of
`c1ops` is balanced, but after the final drop_value(0) the node holding 5 has
an absent left subtree and a right subtree of height 2: the root-level
rebalance sees a right child with balancing factor 0 and, because the source
tests `> 0` instead of `>= 0`, performs a right-left double rotation that
leaves that child unbalanced. -/
theorem c1_avl_balance_bug :
    Jtree.isAvlBalanced (runOps c1ops.dropLast).root = true
    ∧ Jtree.isAvlBalanced (runOps c1ops).root = false :=
  ⟨rfl, rfl⟩

/-- C2: the claim that a node with balancing factor above 1 whose right child
has balancing factor 0 (hence ≥ 0) undergoes a single left rotation fails on
the code.  At `c2tree` — balancing factor 2, right child factor 0, both
children AVL-balanced search trees — the source's rebalancer takes the
right-left double-rotation branch: the new root value is 4 (the right child's
left grandchild), not the right child's value 5, and the result is not even
AVL-balanced. -/
theorem c2_rebalance_bug :
    Jtree.balancingFactor c2left c2right = 2
    ∧ Jtree.balancingFactor c2rl c2rr = 0
    ∧ Jtree.isAvlBalanced c2left = true
    ∧ Jtree.isAvlBalanced c2right = true
    ∧ List.Pairwise (· < ·) (Jtree.toListLR c2tree)
    ∧ Jtree.rebalance c2tree =
        Jtree.node 4 4
          (Jtree.node 2 2 (Jtree.node 1 1 .nil .nil) (Jtree.node 3 1 .nil .nil))
          (Jtree.node 5 3 .nil (Jtree.node 6 2 .nil (Jtree.node 7 1 .nil .nil)))
    ∧ Jtree.rootValue (Jtree.rebalance c2tree) ≠ Jtree.rootValue c2right
    ∧ Jtree.isAvlBalanced (Jtree.rebalance c2tree) = false := by
  refine ⟨rfl, rfl, rfl, rfl, by decide, rfl, by decide, rfl⟩

/-- C8: building a tree with from_collection([2,1,6,0,4,7,3,5]) and then
calling drop_value(0) succeeds and yields a tree whose root value is 4, whose
root height field is 3, whose size is 7, and which no longer contains 0. -/
theorem c8_scenario :
    (c8pre.dropValue 0).1 = .ok ()
    ∧ Jtree.rootValue (c8pre.dropValue 0).2.root = some 4
    ∧ Jtree.rootHeight (c8pre.dropValue 0).2.root = some 3
    ∧ (c8pre.dropValue 0).2.getSize = 7
    ∧ (c8pre.dropValue 0).2.contains 0 = false :=
  ⟨rfl, rfl, rfl, rfl, rfl⟩

/-- C7 counterexample: the claim that after deleting at a node with two
children the deleted node's position holds the former minimum of its right
subtree is false.  `c7tree` is an AVL-balanced search tree whose root 10 has
two non-leaf children; the minimum of its right subtree is 12, yet after
drop_value(10) the rebalance rotation places 5 at the deleted node's
position. -/
theorem c7_position_counterexample :
    List.Pairwise (· < ·) (Jtree.toListLR c7tree)
    ∧ Jtree.isAvlBalanced c7tree = true
    ∧ (Jtree.dropValue c7tree 10).1 = .ok ()
    ∧ Jtree.leastFrom 15 (Jtree.node 12 1 .nil .nil) = 12
    ∧ Jtree.rootValue (Jtree.dropValue c7tree 10).2 = some 5
    ∧ ¬ Jtree.rootValue (Jtree.dropValue c7tree 10).2 = some 12 := by
  refine ⟨by decide, rfl, rfl, rfl, rfl, by decide⟩

end ClaimsConcrete

section ClaimSeven

variable {α : Type} [LinearOrder α]

/-- C7 amended: for every drop_value call that finds its target at a node
having both a left and a right child, neither of which is a leaf, the node's
value is overwritten with its in-order successor — the minimum value of its
right subtree — and that successor value is then deleted from the right
subtree; the node is then rebalanced, which may move a different value into
the deleted node's position.  The in-order sequence of the resulting subtree
is exactly the original sequence with the target erased.  (When a child is a
leaf the source instead splices the leaf's value directly.) -/
theorem c7_successor_deletion {v : α} {hh : Nat} {lv : α} {lh : Nat}
    {ll lr : Jtree α} {rv : α} {rh : Nat} {rl rr : Jtree α}
    (h1 : Jtree.isLeaf (Jtree.node rv rh rl rr) = false)
    (h2 : Jtree.isLeaf (Jtree.node lv lh ll lr) = false)
    (hs : List.Pairwise (· < ·) (Jtree.toListLR
      (Jtree.node v hh (Jtree.node lv lh ll lr) (Jtree.node rv rh rl rr)))) :
    Jtree.dropValue (Jtree.node v hh (Jtree.node lv lh ll lr) (Jtree.node rv rh rl rr)) v =
      (.ok (), Jtree.setHeight (Jtree.rebalance (Jtree.node (Jtree.leastFrom rv rl) hh
        (Jtree.node lv lh ll lr)
        (Jtree.dropValue (Jtree.node rv rh rl rr) (Jtree.leastFrom rv rl)).2)))
    ∧ Jtree.leastFrom rv rl ∈ Jtree.toListLR (Jtree.node rv rh rl rr)
    ∧ (∀ y ∈ Jtree.toListLR (Jtree.node rv rh rl rr), Jtree.leastFrom rv rl ≤ y)
    ∧ (Jtree.dropValue (Jtree.node rv rh rl rr) (Jtree.leastFrom rv rl)).2.toListLR =
        (Jtree.toListLR (Jtree.node rv rh rl rr)).erase (Jtree.leastFrom rv rl)
    ∧ (Jtree.dropValue (Jtree.node v hh (Jtree.node lv lh ll lr)
          (Jtree.node rv rh rl rr)) v).2.toListLR =
        (Jtree.toListLR (Jtree.node v hh (Jtree.node lv lh ll lr)
          (Jtree.node rv rh rl rr))).erase v := by
  have hsplit := hs
  rw [Jtree.toListLR_node, List.pairwise_append] at hsplit
  obtain ⟨hsl, hsr', hcross⟩ := hsplit
  have hsr := hsr'.sublist (List.sublist_cons_self v _)
  obtain ⟨tl, htl⟩ := Jtree.toListLR_leastFrom rl rv (Jtree.toListLR rr)
  have hLRr : Jtree.toListLR (Jtree.node rv rh rl rr) = Jtree.leastFrom rv rl :: tl := by
    rw [Jtree.toListLR_node]; exact htl
  have hmem : Jtree.leastFrom rv rl ∈ Jtree.toListLR (Jtree.node rv rh rl rr) := by
    rw [hLRr]; simp
  have hlow : ∀ y ∈ Jtree.toListLR (Jtree.node rv rh rl rr), Jtree.leastFrom rv rl ≤ y := by
    intro y hy
    rw [hLRr, List.mem_cons] at hy
    rcases hy with hy | hy
    · exact le_of_eq hy.symm
    · exact le_of_lt (List.rel_of_pairwise_cons (hLRr ▸ hsr) hy)
  have hcm : Jtree.contains (Jtree.node rv rh rl rr) (Jtree.leastFrom rv rl) = true :=
    (Jtree.contains_iff_mem _ _ hsr).mpr hmem
  have herase := Jtree.drop_ok_toList (Jtree.node rv rh rl rr) (Jtree.leastFrom rv rl) hsr hcm
  have hwhole := Jtree.drop_ok_toList
    (Jtree.node v hh (Jtree.node lv lh ll lr) (Jtree.node rv rh rl rr)) v hs
    (by simp [Jtree.contains])
  exact ⟨Jtree.dropValue_case_d h1 h2, hmem, hlow, herase, hwhole⟩

/-- C7 witness: the amended statement instantiated at the components of
`c7tree`. -/
theorem c7_successor_deletion_witness :
    Jtree.leastFrom (15 : Int) (Jtree.node 12 1 .nil .nil) ∈
      Jtree.toListLR (Jtree.node (15 : Int) 2 (Jtree.node 12 1 .nil .nil) .nil)
    ∧ (Jtree.dropValue c7tree 10).2.toListLR = (Jtree.toListLR c7tree).erase 10 := by
  have h := @c7_successor_deletion Int _ 10 4 5 3
    (Jtree.node 3 2 (Jtree.node 2 1 .nil .nil) (Jtree.node 4 1 .nil .nil))
    (Jtree.node 7 1 .nil .nil) 15 2 (Jtree.node 12 1 .nil .nil) .nil
    (by decide) (by decide) (by decide)
  exact ⟨h.2.1, h.2.2.2.2⟩

end ClaimSeven
